import Mathlib

/-!
Verification of the pytemporal bitemporal update engine.

This file gives a shallow embedding, in Lean 4, of the change-computation
pipeline of the pytemporal Rust crate, and proves or refutes a fixed list of
claims about it.

Two models are developed:

1. A row-level model of the engine pipeline (src/lib.rs, src/overlap.rs,
   src/timeline.rs, src/conflation.rs).  A record batch is a list of rows;
   each row carries the textual forms of its identity columns, the textual
   forms of its value columns, its value-hash string, and the four temporal
   columns as integers (microseconds since the epoch, the engine's canonical
   instant).  The value hash is assumed already populated, mirroring the
   pipeline position after prepare_inputs has ensured the hash column.

2. A columnar model of the Arrow-facing helpers (src/arrow_hash.rs,
   src/batch_utils.rs, the schema-sensitive part of src/conflation.rs), with
   explicit column data types, cells, and the byte serialization used for
   value hashing.  The hash digest itself (xxh64 / sha256) is an explicit
   function parameter: every claim about hashing depends only on the byte
   serialization, never on digest internals.
-/

namespace PyTemporal

/-- Lexicographic order on character lists by code point, used to model the
byte-lexicographic ordering of Rust String comparison. -/
def charListLt : List Char → List Char → Bool
  | [], [] => false
  | [], _ :: _ => true
  | _ :: _, [] => false
  | a :: as, b :: bs =>
    if a.toNat < b.toNat then true
    else if b.toNat < a.toNat then false
    else charListLt as bs

/-- Strict string order modelling Rust String cmp (lexicographic). -/
def strLt (a b : String) : Bool := charListLt a.data b.data

/-- The sentinel far-future instant, 2262-04-11 23:59:59 UTC, in microseconds
since the epoch (types.rs MAX_DATETIME and MAX_TIMESTAMP). -/
def MAXTS : Int := 9223372799000000

/-- Update mode (types.rs UpdateMode). -/
inductive UpdateMode where
  | delta
  | fullState
deriving DecidableEq, Repr

/-- One row of a record batch in the row-level model.  The identity and value
columns are carried as their textual forms; temporal columns are microseconds
since the epoch. -/
structure Row where
  ids : List String
  vals : List String
  hash : String
  effFrom : Int
  effTo : Int
  asOfFrom : Int
  asOfTo : Int
deriving Repr, DecidableEq

instance : Inhabited Row := ⟨⟨[], [], "", 0, 0, 0, 0⟩⟩

/-- The composite identity key of a row: identity column texts joined with
the reserved separator (lib.rs create_id_key_with_buffer, conflation.rs
extract_id_key). -/
def idKey (r : Row) : String := String.intercalate "|" r.ids

/-- The result of a run (types.rs ChangeSet, including the expired_records
field produced by build_final_changeset). -/
structure ChangeSet where
  toExpire : List Nat
  toInsert : List (List Row)
  expiredRecords : List (List Row)
deriving Repr, DecidableEq

/-- Insertion, used by the stable insertion sort that models the (stable)
Rust sort_by calls; for Nat keys it also models sort_unstable, whose sorted
result is the same list. -/
def insertBy {α : Type} (le : α → α → Bool) (x : α) : List α → List α
  | [] => [x]
  | y :: ys => if le x y then x :: y :: ys else y :: insertBy le x ys

/-- Stable insertion sort. -/
def sortBy {α : Type} (le : α → α → Bool) : List α → List α
  | [] => []
  | x :: xs => insertBy le x (sortBy le xs)

/-- Tail of the consecutive-duplicate removal: drop elements equal to the
last kept one. -/
def dedupAdjAux (last : Nat) : List Nat → List Nat
  | [] => []
  | y :: rest => if y = last then dedupAdjAux last rest else y :: dedupAdjAux y rest

/-- Removal of consecutive duplicates (Rust Vec dedup), as applied to the
sorted expiry index list in build_final_changeset. -/
def dedupAdj : List Nat → List Nat
  | [] => []
  | x :: rest => x :: dedupAdjAux x rest

/-- In-order association-list insertion of a row index into the per-key group
map (lib.rs build_id_groups; the entry API of the hash map).  A true flag
files the index under the current-state side, false under the updates side. -/
def addToGroups (groups : List (String × List Nat × List Nat)) (key : String)
    (idx : Nat) (isCur : Bool) : List (String × List Nat × List Nat) :=
  match groups with
  | [] => if isCur then [(key, [idx], [])] else [(key, [], [idx])]
  | (k, cs, us) :: rest =>
    if k = key then
      if isCur then (k, cs ++ [idx], us) :: rest else (k, cs, us ++ [idx]) :: rest
    else (k, cs, us) :: addToGroups rest key idx isCur

/-- Grouping of current-state and update row indices by identity key
(lib.rs build_id_groups).  Current rows are filed first, then update rows,
exactly as in the source; the model keeps first-insertion order where the
source uses hash-map order, which no claim depends on. -/
def buildIdGroups (cur upd : List Row) : List (String × List Nat × List Nat) :=
  let withCur := (List.range cur.length).foldl
    (fun gs i => addToGroups gs (idKey (cur.getD i default)) i true) []
  (List.range upd.length).foldl
    (fun gs i => addToGroups gs (idKey (upd.getD i default)) i false) withCur

/-- Tombstone synthesis (lib.rs create_tombstone_records_optimized): each
selected current row is copied with effective_to set to the system date and
as_of_from set to the supplied timestamp; all other columns are kept. -/
def createTombstoneRecords (idxs : List Nat) (cur : List Row)
    (sysDate ts : Int) : List Row :=
  idxs.map (fun i =>
    let r := cur.getD i default
    ⟨r.ids, r.vals, r.hash, r.effFrom, sysDate, ts, r.asOfTo⟩)

/-- Expired-records synthesis (batch_utils.rs create_expired_records_batch):
each selected current row is copied with as_of_to set to the expiry
timestamp; all other columns are kept. -/
def createExpiredRecords (cur : List Row) (idxs : List Nat) (ts : Int) : List Row :=
  idxs.map (fun i =>
    let r := cur.getD i default
    ⟨r.ids, r.vals, r.hash, r.effFrom, r.effTo, r.asOfFrom, ts⟩)

/-- Adjacency of two effective segments (lib.rs are_segments_adjacent). -/
def segsAdjacent (aFrom aTo bFrom bTo : Int) : Bool :=
  decide (aTo = bFrom) || decide (bTo = aFrom)

/-- The first-match search of the full-state comparator
(process_full_state_optimized): scan the current rows of the key group in
order and stop at the first row whose value hash equals the update hash,
reporting whether that row is adjacent to, or exactly equal to, the update
interval.  The source breaks out of the loop at the first hash match. -/
def findMatchingCurrent (cur : List Row) (updHash : String) (uFrom uTo : Int) :
    List Nat → Option Nat × Bool × Bool
  | [] => (none, false, false)
  | cIdx :: rest =>
    let c := cur.getD cIdx default
    if c.hash = updHash then
      if segsAdjacent c.effFrom c.effTo uFrom uTo then (some cIdx, true, false)
      else if c.effFrom = uFrom ∧ c.effTo = uTo then (some cIdx, false, true)
      else (some cIdx, false, false)
    else findMatchingCurrent cur updHash uFrom uTo rest

/-- Merged segment for the adjacent-same-hash case of full-state mode
(lib.rs create_merged_segment_cross_batch): the update row is the base, the
effective interval is the union, and as_of_from is the timestamp passed by
the caller (the consistent timestamp). -/
def mergedSegment (cur upd : List Row) (cIdx uIdx : Nat) (ts : Int) : Row :=
  let c := cur.getD cIdx default
  let u := upd.getD uIdx default
  ⟨u.ids, u.vals, u.hash, min c.effFrom u.effFrom, max c.effTo u.effTo, ts, u.asOfTo⟩

/-- One step of the full-state comparator loop over update rows
(process_full_state_optimized).  The accumulator carries the expiry indices,
the insert batches pushed so far, and the updates-to-insert index list. -/
def fsLoop (cur upd : List Row) (curIdxs : List Nat) (ts : Int) :
    List Nat → List Nat → List (List Row) → List Nat →
    List Nat × List (List Row) × List Nat
  | [], expire, inserts, toIns => (expire, inserts, toIns)
  | uIdx :: rest, expire, inserts, toIns =>
    let u := upd.getD uIdx default
    match findMatchingCurrent cur u.hash u.effFrom u.effTo curIdxs with
    | (some cIdx, true, _) =>
      fsLoop cur upd curIdxs ts rest (expire ++ [cIdx])
        (inserts ++ [[mergedSegment cur upd cIdx uIdx ts]]) toIns
    | (some _, false, true) =>
      fsLoop cur upd curIdxs ts rest expire inserts toIns
    | (some _, false, false) =>
      fsLoop cur upd curIdxs ts rest expire inserts (toIns ++ [uIdx])
    | (none, _, _) =>
      let expire2 := if toIns.isEmpty then expire ++ curIdxs else expire
      fsLoop cur upd curIdxs ts rest expire2 inserts (toIns ++ [uIdx])

/-- Full-state comparator for one key group (process_full_state_optimized,
hash-column branch): classify each update against the current rows and emit
the merged segments and the slice of updates to insert. -/
def processFullState (curIdxs updIdxs : List Nat) (cur upd : List Row)
    (ts : Int) : List Nat × List (List Row) :=
  let t := fsLoop cur upd curIdxs ts updIdxs [] [] []
  if t.2.2.isEmpty then (t.1, t.2.1)
  else (t.1, t.2.1 ++ [t.2.2.map (fun i => upd.getD i default)])

/-- Materialized per-key record (types.rs BitemporalRecord as built by
lib.rs create_bitemporal_records_from_indices: as_of_to is forced to the
sentinel and the original row index is remembered). -/
structure Rec where
  ids : List String
  hash : String
  effFrom : Int
  effTo : Int
  asOfFrom : Int
  asOfTo : Int
  origIndex : Option Nat
deriving Repr, DecidableEq

instance : Inhabited Rec := ⟨⟨[], "", 0, 0, 0, 0, none⟩⟩

/-- Record materialization from row indices
(create_bitemporal_records_from_indices). -/
def createRecs (idxs : List Nat) (batch : List Row) : List Rec :=
  idxs.map (fun i =>
    let r := batch.getD i default
    ⟨r.ids, r.hash, r.effFrom, r.effTo, r.asOfFrom, MAXTS, some i⟩)

/-- Temporal intersection of half-open intervals
(overlap.rs has_temporal_intersection). -/
def hasTemporalIntersection (c u : Rec) : Bool :=
  decide (c.effFrom < u.effTo) && decide (c.effTo > u.effFrom)

/-- Same-hash adjacency (overlap.rs can_conflate_records). -/
def canConflateRecords (c u : Rec) : Bool :=
  decide (c.hash = u.hash) &&
    (decide (c.effTo = u.effFrom) || decide (u.effTo = c.effFrom))

/-- No-change detection (overlap.rs is_no_change_update). -/
def isNoChangeUpdate (cs : List Rec) (u : Rec) : Bool :=
  cs.any (fun c => hasTemporalIntersection c u && decide (c.hash = u.hash))

/-- Update-side overlap detection (overlap.rs has_overlap_with_current):
intersection always counts; adjacency counts only when the update intersects
no current row at all. -/
def hasOverlapWithCurrent (cs : List Rec) (u : Rec) : Bool :=
  if cs.any (fun c => hasTemporalIntersection c u) then true
  else cs.any (fun c => canConflateRecords c u)

/-- Current-side contextual overlap detection
(overlap.rs has_overlap_with_updates_contextual). -/
def hasOverlapWithUpdatesContextual (updates : List Rec) (c : Rec)
    (allCur : List Rec) : Bool :=
  updates.any (fun u =>
    if hasTemporalIntersection c u then true
    else if allCur.any (fun c2 => hasTemporalIntersection c2 u) then false
    else canConflateRecords c u)

/-- Update categorization loop of overlap.rs categorize_records: zero-width
updates are dropped, no-change updates are dropped, and the rest are split
into overlapping and non-overlapping. -/
def categorizeUpdates (cs : List Rec) : List Rec → List Rec × List Rec
  | [] => ([], [])
  | u :: rest =>
    let (ov, nov) := categorizeUpdates cs rest
    if decide (u.effFrom ≥ u.effTo) then (ov, nov)
    else if isNoChangeUpdate cs u then (ov, nov)
    else if hasOverlapWithCurrent cs u then (u :: ov, nov)
    else (ov, u :: nov)

/-- Record categorization (overlap.rs categorize_records). -/
def categorizeRecords (cs us : List Rec) : List Rec × List Rec × List Rec :=
  let p := categorizeUpdates cs us
  (cs.filter (fun c => hasOverlapWithUpdatesContextual (p.1 ++ p.2) c cs), p.1, p.2)

/-- Emitted output row built from a materialized record and its source row
(batch_utils.rs build_temporal_columns: identity and value columns from the
source row, value_hash and the four temporal columns from the record). -/
def rowFromRec (batch : List Row) (r : Rec) : Row :=
  let src := batch.getD (r.origIndex.getD 0) default
  ⟨src.ids, src.vals, r.hash, r.effFrom, r.effTo, r.asOfFrom, r.asOfTo⟩

/-- Timeline event kinds (types.rs EventType). -/
inductive EType where
  | curStart
  | curEnd
  | updStart
  | updEnd
deriving DecidableEq, Repr

/-- Tie-break rank of an event kind at a shared instant (timeline.rs event
sort: CurrentEnd, UpdateStart, UpdateEnd, CurrentStart). -/
def etypeRank : EType → Nat
  | .curEnd => 0
  | .updStart => 1
  | .updEnd => 2
  | .curStart => 3

/-- Timeline event (types.rs TimelineEvent). -/
structure Event where
  date : Int
  etype : EType
  rcd : Rec
deriving Repr, DecidableEq

/-- Event ordering used by the stable sort in process_id_timeline. -/
def eventLE (a b : Event) : Bool :=
  decide (a.date < b.date) ||
    (decide (a.date = b.date) && decide (etypeRank a.etype ≤ etypeRank b.etype))

/-- Events contributed by one record with the given start and end kinds
(process_id_timeline: a start event always, an end event unless the record
is open-ended). -/
def eventsOf (startK endK : EType) (r : Rec) : List Event :=
  if r.effTo = MAXTS then [⟨r.effFrom, startK, r⟩]
  else [⟨r.effFrom, startK, r⟩, ⟨r.effTo, endK, r⟩]

/-- Application of one event to the pair of active sets
(process_id_timeline event loop). -/
def applyEvent (ac au : List Rec) (e : Event) : List Rec × List Rec :=
  match e.etype with
  | .curStart => (ac ++ [e.rcd], au)
  | .curEnd => (ac.filter (fun r => !decide (r.effFrom = e.rcd.effFrom)), au)
  | .updStart => (ac, au ++ [e.rcd])
  | .updEnd => (ac, au.filter (fun r => !decide (r.effFrom = e.rcd.effFrom)))

/-- Segment emission policy (timeline.rs emit_segment): prefer the first
active update unless an active current row carries the same hash; re-emitted
current fragments take the as_of_from of the overlapping updates. -/
def emitSegment (fromD toD : Int) (ac au : List Rec) (cur upd : List Row)
    (updAsOf : Option Int) : Option Row :=
  if decide (fromD ≥ toD) then none
  else
    match au.head? with
    | some u =>
      match ac.head? with
      | some c =>
        if u.hash ≠ c.hash then
          some (rowFromRec upd ⟨u.ids, u.hash, fromD, toD, u.asOfFrom, MAXTS, u.origIndex⟩)
        else
          some (rowFromRec cur
            ⟨c.ids, c.hash, fromD, toD, updAsOf.getD c.asOfFrom, MAXTS, c.origIndex⟩)
      | none =>
        some (rowFromRec upd ⟨u.ids, u.hash, fromD, toD, u.asOfFrom, MAXTS, u.origIndex⟩)
    | none =>
      match ac.head? with
      | some c =>
        some (rowFromRec cur
          ⟨c.ids, c.hash, fromD, toD, updAsOf.getD c.asOfFrom, MAXTS, c.origIndex⟩)
      | none => none

/-- The event sweep of process_id_timeline.  Fuel equals the event count; each
iteration consumes the nonempty group of events sharing the node date, so the
fuel is never exhausted before the event list. -/
def sweep (cur upd : List Row) (updAsOf : Option Int) :
    Nat → List Event → Option Int → List Rec → List Rec → List (List Row) →
    List (List Row)
  | 0, _, _, _, _, acc => acc
  | _, [], _, _, _, acc => acc
  | Nat.succ fuel, e :: rest, lastDate, ac, au, acc =>
    let d := e.date
    let acc1 :=
      match lastDate with
      | some prev =>
        if decide (prev < d) && (!ac.isEmpty || !au.isEmpty) then
          match emitSegment prev d ac au cur upd updAsOf with
          | some row => acc ++ [[row]]
          | none => acc
        else acc
      | none => acc
    let (nowEvents, rest2) := (e :: rest).span (fun ev => ev.date = d)
    let (ac2, au2) := nowEvents.foldl (fun p ev => applyEvent p.1 p.2 ev) (ac, au)
    let nextDate := match rest2.head? with
      | some ev => ev.date
      | none => MAXTS
    let acc2 :=
      if (!ac2.isEmpty || !au2.isEmpty) && decide (nextDate > d) then
        match emitSegment d nextDate ac2 au2 cur upd updAsOf with
        | some row => acc1 ++ [[row]]
        | none => acc1
      else acc1
    sweep cur upd updAsOf fuel rest2 (some d) ac2 au2 acc2

/-- Delta-mode timeline processing of one key group
(timeline.rs process_id_timeline). -/
def processIdTimeline (curRecs updRecs : List Rec) (cur upd : List Row) :
    List Nat × List (List Row) :=
  let cat := categorizeRecords curRecs updRecs
  let oc := cat.1
  let ov := cat.2.1
  let nov := cat.2.2
  let inserts0 : List (List Row) :=
    if nov.isEmpty then [] else [nov.map (fun r => rowFromRec upd r)]
  if oc.isEmpty && ov.isEmpty then ([], inserts0)
  else
    let updAsOf := ov.head?.map (fun r => r.asOfFrom)
    let events :=
      (oc.foldr (fun r acc => eventsOf .curStart .curEnd r ++ acc) []) ++
      (ov.foldr (fun r acc => eventsOf .updStart .updEnd r ++ acc) [])
    let sorted := sortBy eventLE events
    let swept := sweep cur upd updAsOf sorted.length sorted none [] [] []
    (oc.filterMap (fun r => r.origIndex), inserts0 ++ swept)

/-- The consistent timestamp of lib.rs process_id_group_optimized: the
as_of_from of the first row of the whole updates batch when that batch is
non-empty (the source reads the microsecond as_of_from array at row 0),
else the batch timestamp. -/
def consistentTimestamp (upd : List Row) (batchTs : Int) : Int :=
  match upd.head? with
  | some u => u.asOfFrom
  | none => batchTs

/-- Per-key processing (lib.rs process_id_group_optimized).  Tombstones for
keys absent from the updates use the consistent timestamp. -/
def processIdGroupOptimized (curIdxs updIdxs : List Nat) (cur upd : List Row)
    (sysDate : Int) (mode : UpdateMode) (batchTs : Int) :
    List Nat × List (List Row) :=
  let consistentTs := consistentTimestamp upd batchTs
  if updIdxs.isEmpty then
    if mode = UpdateMode.fullState then
      (curIdxs,
        if curIdxs.isEmpty then []
        else [createTombstoneRecords curIdxs cur sysDate consistentTs])
    else ([], [])
  else
    match mode with
    | .fullState => processFullState curIdxs updIdxs cur upd consistentTs
    | .delta => processIdTimeline (createRecs curIdxs cur) (createRecs updIdxs upd) cur upd

/-- The deduplication key of a single-row batch (conflation.rs
deduplicate_record_batches: identity key, effective interval, value hash). -/
def dedupKey (r : Row) : String × Int × Int × String :=
  (idKey r, r.effFrom, r.effTo, r.hash)

/-- Lexicographic order on deduplication keys, mirroring the chained cmp of
the sort in deduplicate_record_batches. -/
def keyLE (a b : String × Int × Int × String) : Bool :=
  if strLt a.1 b.1 then true
  else if strLt b.1 a.1 then false
  else if a.2.1 < b.2.1 then true
  else if b.2.1 < a.2.1 then false
  else if a.2.2.1 < b.2.2.1 then true
  else if b.2.2.1 < a.2.2.1 then false
  else decide (¬ strLt b.2.2.2 a.2.2.2)

/-- Tail of the duplicate-removal walk of deduplicate_record_batches: keep an
entry whenever its key differs from the last kept key. -/
def dedupRun {β : Type} (last : String × Int × Int × String) :
    List ((String × Int × Int × String) × β) →
    List ((String × Int × Int × String) × β)
  | [] => []
  | (k, b) :: rest => if k = last then dedupRun last rest else (k, b) :: dedupRun k rest

/-- Duplicate removal over a key-sorted list (deduplicate_record_batches). -/
def dedupByKey {β : Type} :
    List ((String × Int × Int × String) × β) →
    List ((String × Int × Int × String) × β)
  | [] => []
  | (k, b) :: rest => (k, b) :: dedupRun k rest

/-- Batch deduplication (conflation.rs deduplicate_record_batches): only
single-row batches are keyed and kept; they are sorted by key and collapsed
when identity key, effective interval, and value hash all coincide. -/
def deduplicateRecordBatches (batches : List (List Row)) : List (List Row) :=
  let records := batches.filterMap (fun b =>
    match b with
    | [r] => some (dedupKey r, b)
    | _ => none)
  (dedupByKey (sortBy (fun a b => keyLE a.1 b.1) records)).map (fun p => p.2)

/-- Merge test of the neighbor conflation (conflation.rs can_merge_batches):
both batches are single rows, all non-temporal columns coincide, and the
first ends exactly where the second begins. -/
def canMergeBatches (b1 b2 : List Row) : Bool :=
  match b1, b2 with
  | [r1], [r2] =>
    decide (r1.ids = r2.ids) && decide (r1.vals = r2.vals) &&
      decide (r1.hash = r2.hash) && decide (r1.effTo = r2.effFrom)
  | _, _ => false

/-- Extension of a batch to a new effective_to
(conflation.rs extend_batch_to_date, row-level view). -/
def extendBatchToDate (b : List Row) (newTo : Int) : List Row :=
  b.map (fun r => ⟨r.ids, r.vals, r.hash, r.effFrom, newTo, r.asOfFrom, r.asOfTo⟩)

/-- Fold of the neighbor-conflation pass (conflation.rs
simple_conflate_batches main loop). -/
def conflateLoop (currentB : List Row) : List (List Row) → List (List Row)
  | [] => [currentB]
  | nextB :: rest =>
    if canMergeBatches currentB nextB then
      conflateLoop (extendBatchToDate currentB ((nextB.getD 0 default).effTo)) rest
    else currentB :: conflateLoop nextB rest

/-- Neighbor conflation (conflation.rs simple_conflate_batches): sort the
batches by the effective_from of their first row, then merge runs of
adjacent equal-value single-row batches. -/
def simpleConflateBatches (batches : List (List Row)) : List (List Row) :=
  if batches.length ≤ 1 then batches
  else
    let sorted := sortBy (fun a b =>
      decide ((a.getD 0 default).effFrom ≤ (b.getD 0 default).effFrom)) batches
    match sorted with
    | [] => []
    | b :: rest => conflateLoop b rest

/-- Row-count chunking of the consolidated table (consolidate_final_batches
tail).  The fuel bounds the number of produced chunks; callers pass the row
count, which always suffices for the positive chunk size 10000. -/
def chunkRows : Nat → List Row → Nat → List (List Row)
  | 0, l, _ => [l]
  | Nat.succ fuel, l, n =>
    if l.length ≤ n ∨ n = 0 then [l]
    else l.take n :: chunkRows fuel (l.drop n) n

/-- Batch consolidation (conflation.rs consolidate_final_batches): when more
than one batch exists and at least one is small, concatenate everything and
re-chunk at the 10000-row target; schemas always agree in the model. -/
def consolidateFinalBatches (batches : List (List Row)) : List (List Row) :=
  if batches.isEmpty then []
  else if batches.length = 1 || batches.all (fun b => 1000 < b.length) then batches
  else
    let allRows := batches.foldr (fun b acc => b ++ acc) []
    chunkRows allRows.length allRows 10000

/-- Row metadata used by the input-conflation pass
(conflation.rs conflate_input_updates RowInfo). -/
structure RowInfo where
  rowIdx : Nat
  key : String
  effFrom : Int
  effTo : Int
  hash : String
deriving Repr, DecidableEq

/-- Association-list grouping of RowInfo by identity key, in first-insertion
order (conflate_input_updates id_groups). -/
def addInfoToGroups (groups : List (String × List RowInfo)) (info : RowInfo) :
    List (String × List RowInfo) :=
  match groups with
  | [] => [(info.key, [info])]
  | (k, l) :: rest =>
    if k = info.key then (k, l ++ [info]) :: rest
    else (k, l) :: addInfoToGroups rest info

/-- Longest run of same-hash adjacent rows starting at the head of a sorted
group (the inner while of conflate_input_updates); returns the last row of
the run and the remainder. -/
def runEnd (first : RowInfo) : List RowInfo → RowInfo × List RowInfo
  | [] => (first, [])
  | next :: rest =>
    if first.hash = next.hash && decide (first.effTo = next.effFrom) then
      runEnd next rest
    else (first, next :: rest)

/-- One sorted identity group of conflate_input_updates: collect the indices
to keep and the effective_to extensions.  The fuel bounds the number of runs;
callers pass the group length, which always suffices because each run
consumes at least one row. -/
def collectRuns : Nat → List RowInfo → List Nat × List (Nat × Int)
  | 0, _ => ([], [])
  | _, [] => ([], [])
  | Nat.succ fuel, info :: rest =>
    let (lastInfo, remainder) := runEnd info rest
    let (keep, ext) := collectRuns fuel remainder
    if lastInfo = info then (info.rowIdx :: keep, ext)
    else (info.rowIdx :: keep, (info.rowIdx, lastInfo.effTo) :: ext)

/-- Optional pre-pass merging consecutive same-identity same-hash adjacent
update rows (conflation.rs conflate_input_updates). -/
def conflateInputUpdates (updates : List Row) : List Row :=
  if updates.length ≤ 1 then updates
  else
    let infos := (List.range updates.length).map (fun i =>
      let r := updates.getD i default
      RowInfo.mk i (idKey r) r.effFrom r.effTo r.hash)
    let groups := infos.foldl addInfoToGroups []
    let perGroup := groups.map (fun g =>
      collectRuns g.2.length (sortBy (fun a b => decide (a.effFrom ≤ b.effFrom)) g.2))
    let keep := sortBy (fun a b => decide (a ≤ b))
      (perGroup.foldr (fun p acc => p.1 ++ acc) [])
    let exts := perGroup.foldr (fun p acc => p.2 ++ acc) []
    keep.map (fun i =>
      let r := updates.getD i default
      match exts.find? (fun e => e.1 = i) with
      | some e => ⟨r.ids, r.vals, r.hash, r.effFrom, e.2, r.asOfFrom, r.asOfTo⟩
      | none => r)

/-- Quick paths for empty inputs (lib.rs handle_empty_inputs). -/
def handleEmptyInputs (cur upd : List Row) (sysDate : Int) (mode : UpdateMode)
    (batchTs : Int) : Option ChangeSet :=
  if upd.isEmpty then
    if mode = UpdateMode.fullState ∧ ¬ cur.isEmpty then
      let idxs := List.range cur.length
      some ⟨idxs, [createTombstoneRecords idxs cur sysDate batchTs],
        [createExpiredRecords cur idxs batchTs]⟩
    else some ⟨[], [], []⟩
  else if cur.isEmpty then some ⟨[], [upd], []⟩
  else none

/-- Group-fold of phase 2 (lib.rs process_all_id_groups; the parallel and
serial strategies compute the same per-group results, accumulated here in
group order), including the incremental consolidation at 200 pending insert
batches. -/
def processGroupsAux (cur upd : List Row) (sysDate : Int) (mode : UpdateMode)
    (batchTs : Int) :
    List (String × List Nat × List Nat) → List Nat → List (List Row) →
    List Nat × List (List Row)
  | [], te, ti => (te, ti)
  | g :: rest, te, ti =>
    let p := processIdGroupOptimized g.2.1 g.2.2 cur upd sysDate mode batchTs
    let ti2 := ti ++ p.2
    let ti3 :=
      if 200 < ti2.length then consolidateFinalBatches (deduplicateRecordBatches ti2)
      else ti2
    processGroupsAux cur upd sysDate mode batchTs rest (te ++ p.1) ti3

/-- Phase 3 (lib.rs build_final_changeset): sort and deduplicate the expiry
indices, post-process the insert batches, and build the expired-records
batch from the final expiry list. -/
def buildFinalChangeset (toExpire : List Nat) (toInsert : List (List Row))
    (cur : List Row) (batchTs : Int) : ChangeSet :=
  let te := dedupAdj (sortBy (fun a b => decide (a ≤ b)) toExpire)
  let ti := consolidateFinalBatches
    (simpleConflateBatches (deduplicateRecordBatches toInsert))
  let er := if te.isEmpty then [] else [createExpiredRecords cur te batchTs]
  ⟨te, ti, er⟩

/-- The pipeline after input preparation: quick paths, grouping, per-group
processing, final changeset assembly. -/
def processUpdatesPrepared (cur upd : List Row) (sysDate : Int)
    (mode : UpdateMode) (batchTs : Int) : ChangeSet :=
  match handleEmptyInputs cur upd sysDate mode batchTs with
  | some cs => cs
  | none =>
    let groups := buildIdGroups cur upd
    let p := processGroupsAux cur upd sysDate mode batchTs groups [] []
    buildFinalChangeset p.1 p.2 cur batchTs

/-- The change-computation pipeline (lib.rs process_updates_with_algorithm)
on inputs whose value_hash is already ensured; the batch timestamp captured
at invocation start is a parameter. -/
def processUpdates (cur upd : List Row) (sysDate : Int) (mode : UpdateMode)
    (conflateInputs : Bool) (batchTs : Int) : ChangeSet :=
  processUpdatesPrepared cur
    (if conflateInputs && 1 < upd.length then conflateInputUpdates upd else upd)
    sysDate mode batchTs

/-- Current-state row of the backfill-safety scenario (integration test
test_backfill_skips_future_records): its effective_from (100) is strictly
after the system date (0). -/
def futureRowCur : Row := ⟨["2", "field_a"], ["100", "200"], "hA", 100, MAXTS, 100, MAXTS⟩

/-- Backfill update row for a different key, making the updates batch
non-empty so the per-group quick path runs. -/
def backfillUpd : Row := ⟨["1", "field_a"], ["50", "100"], "hB", 0, 100, 0, MAXTS⟩

/-- The tombstone row the engine emits for futureRowCur: effective_to is
truncated to the system date 0 below its effective_from 100, and as_of_from
is the as_of_from of the first updates row (0), not the batch timestamp. -/
def tombRowEmitted : Row := ⟨["2", "field_a"], ["100", "200"], "hA", 100, 0, 0, MAXTS⟩

/-- Adjacent current row of the exact-match-priority scenario (integration
test test_exact_match_priority_over_adjacent): ends exactly where the update
begins and shares its value hash. -/
def adjacentCur : Row := ⟨["1"], ["field1", "100", "10"], "h", 0, 100, 0, MAXTS⟩

/-- Exact-match current row: identical hash and identical effective interval
to the update. -/
def exactCur : Row := ⟨["1"], ["field1", "100", "10"], "h", 100, MAXTS, 100, MAXTS⟩

/-- Update row exactly equal in hash and interval to exactCur. -/
def exactUpd : Row := ⟨["1"], ["field1", "100", "10"], "h", 100, MAXTS, 100, MAXTS⟩

/-- The merged segment the engine emits for the exact-match scenario: the
adjacent row and the update fused into one open-ended segment. -/
def mergedRowEmitted : Row := ⟨["1"], ["field1", "100", "10"], "h", 0, MAXTS, 100, MAXTS⟩

/-- A zero-width update row (effective_from = effective_to). -/
def zeroWidthUpd : Row := ⟨["1"], ["x"], "h", 50, 50, 0, MAXTS⟩

/-- Timestamp precision (arrow TimeUnit). -/
inductive TUnit where
  | second
  | milli
  | micro
  | nano
deriving DecidableEq, Repr

/-- Column data types of the columnar model (the arrow DataType cases the
source handles). -/
inductive DType where
  | utf8
  | largeUtf8
  | int8
  | int16
  | int32
  | int64
  | float32
  | float64
  | boolean
  | date32
  | date64
  | timestamp (u : TUnit) (tz : Option String)
  | decimal128 (p s : Nat)
deriving DecidableEq, Repr

/-- Cell values of the columnar model.  A 32- or 64-bit float that is finite,
has zero fractional part, and lies in signed-64-bit range is carried as the
integer it denotes, mirroring the branch condition of the Float32 and
Float64 arms of arrow_hash.rs hash_array_value_direct; any other float is
carried as the raw bit pattern of its 64-bit IEEE-754 widening, which is all
those arms consume. -/
inductive AValue where
  | vutf8 (s : String)
  | vint8 (v : Int)
  | vint16 (v : Int)
  | vint32 (v : Int)
  | vint64 (v : Int)
  | vfloat32int (v : Int)
  | vfloat32other (bits : Nat)
  | vfloat64int (v : Int)
  | vfloat64other (bits : Nat)
  | vbool (b : Bool)
  | vdate32 (v : Int)
  | vdate64 (v : Int)
  | vts (u : TUnit) (v : Int)
  | vdecimal128 (v : Int)
deriving DecidableEq, Repr

/-- Hash algorithm selection (lib.rs HashAlgorithm). -/
inductive HashAlgorithm where
  | xxHash
  | sha256
deriving DecidableEq, Repr

/-- Little-endian byte list of a natural number at the given width. -/
def leBytes (width : Nat) (x : Nat) : List Nat :=
  (List.range width).map (fun i => x / 256 ^ i % 256)

/-- Little-endian bytes of a 64-bit signed integer in two's complement
(Rust to_le_bytes on i64). -/
def i64le (v : Int) : List Nat := leBytes 8 (v.emod (2 ^ 64)).toNat

/-- Little-endian bytes of a 32-bit signed integer in two's complement. -/
def i32le (v : Int) : List Nat := leBytes 4 (v.emod (2 ^ 32)).toNat

/-- Little-endian bytes of a 128-bit signed integer in two's complement. -/
def i128le (v : Int) : List Nat := leBytes 16 (v.emod (2 ^ 128)).toNat

/-- The literal bytes of the string NULL contributed by null cells. -/
def nullBytes : List Nat := [78, 85, 76, 76]

/-- UTF-8 bytes of a string. -/
def utf8Bytes (s : String) : List Nat := s.toUTF8.data.toList.map (fun b => b.toNat)

/-- Byte contribution of one non-null cell
(arrow_hash.rs hash_array_value_direct): integers narrower than 64 bits are
widened to 64; integer-valued floats are encoded as the equivalent Int64;
other floats contribute their widened 64-bit pattern; strings their UTF-8
bytes; booleans one byte; dates and timestamps their native-precision
integer representation; decimals their 128-bit representation. -/
def encodeValue : AValue → List Nat
  | .vutf8 s => utf8Bytes s
  | .vint8 v => i64le v
  | .vint16 v => i64le v
  | .vint32 v => i64le v
  | .vint64 v => i64le v
  | .vfloat32int v => i64le v
  | .vfloat32other bits => leBytes 8 bits
  | .vfloat64int v => i64le v
  | .vfloat64other bits => leBytes 8 bits
  | .vbool b => [if b then 1 else 0]
  | .vdate32 v => i32le v
  | .vdate64 v => i64le v
  | .vts _ v => i64le v
  | .vdecimal128 v => i128le v

/-- Byte contribution of a cell: null cells contribute the literal NULL. -/
def encodeCell : Option AValue → List Nat
  | none => nullBytes
  | some v => encodeValue v

/-- A named column with its data type and cells. -/
structure ACol where
  name : String
  dtype : DType
  cells : List (Option AValue)
deriving DecidableEq, Repr

/-- A columnar record batch. -/
structure ABatch where
  cols : List ACol
  numRows : Nat
deriving DecidableEq, Repr

/-- First column of the given name (RecordBatch column_by_name). -/
def colByName (b : ABatch) (n : String) : Option ACol :=
  b.cols.find? (fun c => c.name = n)

/-- Per-row hasher input: the concatenated byte contributions of the value
columns in their listed order (hash_values_batch_arrow_direct inner loop). -/
def rowBytes (b : ABatch) (valueCols : List String) (i : Nat) : List Nat :=
  valueCols.foldl (fun acc cn =>
    acc ++ (match colByName b cn with
      | some c => encodeCell (c.cells.getD i none)
      | none => [])) []

/-- Batch hashing (arrow_hash.rs hash_values_batch_arrow_direct): one hash
string per requested row, produced by the selected digest over the row's
byte serialization. -/
def hashValuesBatchArrowDirect (digest : HashAlgorithm → List Nat → String)
    (algo : HashAlgorithm) (b : ABatch) (rowIdxs : List Nat)
    (valueCols : List String) : List String :=
  rowIdxs.map (fun i => digest algo (rowBytes b valueCols i))

/-- Replacement of the first value_hash column
(add_hash_column_arrow_direct, existing-column branch). -/
def replaceValueHashCol : List ACol → ACol → List ACol
  | [], _ => []
  | c :: rest, newCol =>
    if c.name = "value_hash" then newCol :: rest
    else c :: replaceValueHashCol rest newCol

/-- The hash-population entry point (arrow_hash.rs
add_hash_column_arrow_direct): empty batches and missing value columns are
errors; otherwise every row is hashed and the value_hash column is replaced
if present, appended if absent. -/
def addHashColumnArrowDirect (digest : HashAlgorithm → List Nat → String)
    (algo : HashAlgorithm) (b : ABatch) (valueCols : List String) :
    Except String ABatch :=
  if b.numRows = 0 then .error "Cannot add hash column to empty RecordBatch"
  else if ¬ valueCols.all (fun cn => (colByName b cn).isSome) then
    .error "Column not found in RecordBatch"
  else
    let hashes := hashValuesBatchArrowDirect digest algo b (List.range b.numRows) valueCols
    let hashCol : ACol := ⟨"value_hash", .utf8, hashes.map (fun h => some (.vutf8 h))⟩
    if (colByName b "value_hash").isSome then
      .ok ⟨replaceValueHashCol b.cols hashCol, b.numRows⟩
    else .ok ⟨b.cols ++ [hashCol], b.numRows⟩

/-- A populated hash cell: non-null and a non-empty string. -/
def nonEmptyHashCell : Option AValue → Bool
  | some (.vutf8 s) => decide (s ≠ "")
  | _ => false

/-- The population check of lib.rs ensure_hash_column_with_algorithm: the
value_hash column exists, is a string column, and every cell is non-null and
non-empty. -/
def hashColPopulated (b : ABatch) : Bool :=
  match colByName b "value_hash" with
  | some c => decide (c.dtype = DType.utf8) && c.cells.all nonEmptyHashCell
  | none => false

/-- Hash ensuring (lib.rs ensure_hash_column_with_algorithm): empty batches
pass through; a fully populated hash column passes through; otherwise the
whole column is recomputed. -/
def ensureHashColumnWithAlgorithm (digest : HashAlgorithm → List Nat → String)
    (algo : HashAlgorithm) (b : ABatch) (valueCols : List String) :
    Except String ABatch :=
  if b.numRows = 0 then .ok b
  else if hashColPopulated b then .ok b
  else addHashColumnArrowDirect digest algo b valueCols

/-- An untyped array: a data type plus cells
(the ArrayRef results of batch_utils.rs helpers). -/
structure AArray where
  dtype : DType
  values : List (Option AValue)
deriving DecidableEq, Repr

/-- Largest i64 value, the overflow fallback of the nanosecond conversion. -/
def i64Max : Int := 9223372036854775807

/-- Single-value timestamp array at a requested unit and timezone
(batch_utils.rs create_timestamp_array_with_unit).  The input instant is in
microseconds; second and millisecond conversions truncate toward zero as
chrono Duration does, and the nanosecond conversion falls back to i64 MAX
on overflow. -/
def createTimestampArrayWithUnit (dt : Int) (u : TUnit) (tz : Option String) :
    AArray :=
  match u with
  | .second => ⟨.timestamp .second tz, [some (.vts .second (Int.tdiv dt 1000000))]⟩
  | .milli => ⟨.timestamp .milli tz, [some (.vts .milli (Int.tdiv dt 1000))]⟩
  | .micro => ⟨.timestamp .micro tz, [some (.vts .micro dt)]⟩
  | .nano =>
    let ns := dt * 1000
    ⟨.timestamp .nano tz,
      [some (.vts .nano (if ns < -i64Max - 1 ∨ i64Max < ns then i64Max else ns))]⟩

/-- Synthesized temporal array matching a schema data type
(the per-field match arms of batch_utils.rs build_temporal_columns):
timestamps keep unit and timezone, Date32 holds calendar days, Date64
milliseconds; any other type is an error. -/
def temporalArrayFor (dt : Int) (dtype : DType) : Except String AArray :=
  match dtype with
  | .timestamp u tz => .ok (createTimestampArrayWithUnit dt u tz)
  | .date32 => .ok ⟨.date32, [some (.vdate32 (Int.fdiv dt 86400000000))]⟩
  | .date64 => .ok ⟨.date64, [some (.vdate64 (Int.tdiv dt 1000))]⟩
  | _ => .error "Unsupported data type for temporal column"

/-- The temporal and hash payload of a synthesized record
(the BitemporalRecord fields consumed by the batch assembler). -/
structure BRec where
  effFrom : Int
  effTo : Int
  asOfFrom : Int
  asOfTo : Int
  hash : String
deriving DecidableEq, Repr

/-- One output column of the batch assembler
(batch_utils.rs build_temporal_columns): the four temporal columns are
synthesized at the schema type, value_hash is written from the record, and
every other column is the one-row slice of the source column. -/
def buildColumn (br : BRec) (srcRow : Nat) (c : ACol) : Except String ACol :=
  if c.name = "effective_from" then
    (temporalArrayFor br.effFrom c.dtype).map (fun a => ⟨c.name, a.dtype, a.values⟩)
  else if c.name = "effective_to" then
    (temporalArrayFor br.effTo c.dtype).map (fun a => ⟨c.name, a.dtype, a.values⟩)
  else if c.name = "as_of_from" then
    (temporalArrayFor br.asOfFrom c.dtype).map (fun a => ⟨c.name, a.dtype, a.values⟩)
  else if c.name = "as_of_to" then
    (temporalArrayFor br.asOfTo c.dtype).map (fun a => ⟨c.name, a.dtype, a.values⟩)
  else if c.name = "value_hash" then .ok ⟨c.name, .utf8, [some (.vutf8 br.hash)]⟩
  else .ok ⟨c.name, c.dtype, [c.cells.getD srcRow none]⟩

/-- The batch assembler core (batch_utils.rs build_temporal_columns): one
output column per schema field, in schema order. -/
def buildTemporalColumns (br : BRec) (srcRow : Nat) :
    List ACol → Except String (List ACol)
  | [] => .ok []
  | c :: rest =>
    match buildColumn br srcRow c with
    | .error e => .error e
    | .ok c2 =>
      match buildTemporalColumns br srcRow rest with
      | .error e => .error e
      | .ok cs => .ok (c2 :: cs)

/-- The timezone tag of a data type, when it is a timestamp. -/
def tzOf : DType → Option String
  | .timestamp _ t => t
  | _ => none

/-- The columnar view of conflation.rs extend_batch_to_date: every column is
copied except effective_to, which is written as a single-value MICROSECOND
timestamp array carrying the field's timezone, whatever the field's unit. -/
def extendBatchToDateColumns (cols : List ACol) (newTo : Int) : List ACol :=
  cols.map (fun c =>
    if c.name = "effective_to" then
      ⟨c.name, .timestamp .micro (tzOf c.dtype), [some (.vts .micro newTo)]⟩
    else c)

/-- A one-column one-row batch, for concrete hashing statements. -/
def singletonBatch (d : DType) (val : AValue) : ABatch := ⟨[⟨"v", d, [some val]⟩], 1⟩

/-- An effective_to schema column at nanosecond precision, input of the
precision-preservation counterexample. -/
def nanoEffToCol : ACol := ⟨"effective_to", .timestamp .nano none, [some (.vts .nano 5000)]⟩

end PyTemporal

namespace PyTemporal

/-- C1.  In full_state mode a current row whose effective_from (100) is
strictly after the system date (0) and whose key is absent from the updates
is nevertheless expired and tombstoned: the run returns expire index 0 and
emits a tombstone whose effective_to (0) lies strictly below its
effective_from (100).  This refutes the claimed backfill-safety skip, which
the repository's own tests assert. -/
theorem c1_fullState_tombstones_future_row :
    (processUpdates [futureRowCur] [backfillUpd] 0 UpdateMode.fullState false 7).toExpire
      = [0] ∧
    (processUpdates [futureRowCur] [backfillUpd] 0 UpdateMode.fullState false 7).toInsert
      = [[backfillUpd, tombRowEmitted]] ∧
    tombRowEmitted.effTo < tombRowEmitted.effFrom := by
  refine ⟨?_, ?_, ?_⟩ <;> decide

/-- C2.  In full_state mode, when a key has both an adjacent same-hash
current row (index 0) and an exactly matching current row (index 1), the
first-match search picks the adjacent row: the run expires index 0 and
inserts a merged open-ended segment instead of classifying the update as a
no-op.  This refutes the claimed exact-match priority, which the
repository's own tests assert. -/
theorem c2_fullState_first_match_wins_over_exact :
    (processUpdates [adjacentCur, exactCur] [exactUpd] 100 UpdateMode.fullState false 7).toExpire
      = [0] ∧
    (processUpdates [adjacentCur, exactCur] [exactUpd] 100 UpdateMode.fullState false 7).toInsert
      = [[mergedRowEmitted]] := by
  refine ⟨?_, ?_⟩ <;> decide

/-- C4.  When current_state is empty, the quick path returns the updates
batch unchanged: a zero-width update row (effective_from = effective_to)
appears verbatim in insert_batches instead of being filtered.  This refutes
the claimed universal zero-width filtering (spec invariant I3 and scenario
S6). -/
theorem c4_empty_current_emits_zero_width_row :
    (processUpdates [] [zeroWidthUpd] 0 UpdateMode.delta false 7).toInsert
      = [[zeroWidthUpd]] ∧
    zeroWidthUpd.effFrom = zeroWidthUpd.effTo := by
  refine ⟨?_, ?_⟩ <;> decide

theorem mem_createExpiredRecords {cur : List Row} {idxs : List Nat} {ts : Int}
    {r : Row} (h : r ∈ createExpiredRecords cur idxs ts) : r.asOfTo = ts := by
  simp only [createExpiredRecords, List.mem_map] at h
  obtain ⟨i, _, rfl⟩ := h
  rfl

theorem mem_createTombstoneRecords {idxs : List Nat} {cur : List Row}
    {sysDate ts : Int} {r : Row} (h : r ∈ createTombstoneRecords idxs cur sysDate ts) :
    r.asOfFrom = ts ∧ r.effTo = sysDate := by
  simp only [createTombstoneRecords, List.mem_map] at h
  obtain ⟨i, _, rfl⟩ := h
  exact ⟨rfl, rfl⟩

theorem handleEmptyInputs_expired {cur upd : List Row} {sysDate : Int}
    {mode : UpdateMode} {ts : Int} {cs : ChangeSet}
    (h : handleEmptyInputs cur upd sysDate mode ts = some cs) :
    ∀ b ∈ cs.expiredRecords, ∀ r ∈ b, r.asOfTo = ts := by
  unfold handleEmptyInputs at h
  split_ifs at h with h1 h2 h3 <;>
    simp only [Option.some.injEq, reduceCtorEq] at h
  · subst h
    intro b hb r hr
    simp only [List.mem_singleton] at hb
    subst hb
    exact mem_createExpiredRecords hr
  · subst h
    intro b hb
    simp at hb
  · subst h
    intro b hb
    simp at hb

theorem buildFinalChangeset_expired {te : List Nat} {ti : List (List Row)}
    {cur : List Row} {ts : Int} :
    ∀ b ∈ (buildFinalChangeset te ti cur ts).expiredRecords, ∀ r ∈ b, r.asOfTo = ts := by
  intro b hb r hr
  simp only [buildFinalChangeset] at hb
  split_ifs at hb
  · simp at hb
  · simp only [List.mem_singleton] at hb
    subst hb
    exact mem_createExpiredRecords hr

theorem processUpdatesPrepared_expired {cur upd : List Row} {sysDate : Int}
    {mode : UpdateMode} {ts : Int} :
    ∀ b ∈ (processUpdatesPrepared cur upd sysDate mode ts).expiredRecords,
      ∀ r ∈ b, r.asOfTo = ts := by
  unfold processUpdatesPrepared
  cases hh : handleEmptyInputs cur upd sysDate mode ts with
  | some cs => exact handleEmptyInputs_expired hh
  | none => exact buildFinalChangeset_expired

theorem processIdGroup_noUpdates_tombstones {curIdxs : List Nat}
    {cur upd : List Row} {sysDate ts : Int} :
    ∀ b ∈ (processIdGroupOptimized curIdxs [] cur upd sysDate UpdateMode.fullState ts).2,
      ∀ r ∈ b, r.asOfFrom = consistentTimestamp upd ts := by
  intro b hb r hr
  simp only [processIdGroupOptimized, List.isEmpty_nil, if_true, reduceIte] at hb
  split_ifs at hb
  · simp at hb
  · simp only [List.mem_singleton] at hb
    subst hb
    exact (mem_createTombstoneRecords hr).1

/-- C3 (amended): all expiry rows of one run share the batch timestamp as
their as_of_to, but tombstones do not use the batch timestamp when the
updates batch is non-empty: every tombstone emitted for a key absent from
the updates carries as_of_from equal to the consistent timestamp, which is
the as_of_from of the first row of the updates batch, and equals the batch
timestamp only when the updates batch is empty. -/
theorem c3_amended_one_timestamp_per_run (cur upd : List Row) (sysDate : Int)
    (mode : UpdateMode) (ci : Bool) (ts : Int) :
    (∀ b ∈ (processUpdates cur upd sysDate mode ci ts).expiredRecords,
      ∀ r ∈ b, r.asOfTo = ts) ∧
    (∀ curIdxs : List Nat,
      ∀ b ∈ (processIdGroupOptimized curIdxs [] cur upd sysDate UpdateMode.fullState ts).2,
      ∀ r ∈ b, r.asOfFrom = consistentTimestamp upd ts) := by
  constructor
  · unfold processUpdates
    exact processUpdatesPrepared_expired
  · intro curIdxs
    exact processIdGroup_noUpdates_tombstones

/-- Witness for the amended C3 at the concrete backfill run: the expired row
carries as_of_to 7 and the tombstone carries the consistent timestamp. -/
theorem c3_amended_one_timestamp_per_run_witness :
    (⟨["2", "field_a"], ["100", "200"], "hA", 100, MAXTS, 100, 7⟩ : Row).asOfTo = 7 ∧
    tombRowEmitted.asOfFrom = consistentTimestamp [backfillUpd] 7 :=
  ⟨(c3_amended_one_timestamp_per_run [futureRowCur] [backfillUpd] 0
      UpdateMode.fullState false 7).1
      [⟨["2", "field_a"], ["100", "200"], "hA", 100, MAXTS, 100, 7⟩] (by decide)
      ⟨["2", "field_a"], ["100", "200"], "hA", 100, MAXTS, 100, 7⟩ (by decide),
    (c3_amended_one_timestamp_per_run [futureRowCur] [backfillUpd] 0
      UpdateMode.fullState false 7).2 [0] [tombRowEmitted] (by decide)
      tombRowEmitted (by decide)⟩

/-- C3 counterexample.  A concrete full_state run with batch timestamp 7
whose updates batch carries as_of_from 0: the emitted tombstone row has
as_of_from 0, not the batch timestamp 7, while the expired-records rows
carry as_of_to 7.  So one batch timestamp is not the value written as
as_of_from on every tombstone of the run. -/
theorem c3_tombstone_not_batch_timestamp :
    (processUpdates [futureRowCur] [backfillUpd] 0 UpdateMode.fullState false 7).toInsert
      = [[backfillUpd, tombRowEmitted]] ∧
    tombRowEmitted.asOfFrom = 0 ∧ (0 : Int) ≠ 7 ∧
    (processUpdates [futureRowCur] [backfillUpd] 0 UpdateMode.fullState false 7).expiredRecords
      = [[⟨["2", "field_a"], ["100", "200"], "hA", 100, MAXTS, 100, 7⟩]] := by
  refine ⟨?_, ?_, ?_, ?_⟩ <;> decide

theorem mem_insertBy {α : Type} {le : α → α → Bool} {x a : α} {l : List α} :
    a ∈ insertBy le x l ↔ a = x ∨ a ∈ l := by
  induction l with
  | nil => simp [insertBy]
  | cons y ys ih =>
    simp only [insertBy]
    split
    · simp [List.mem_cons]
    · simp only [List.mem_cons, ih]
      tauto

theorem mem_sortBy {α : Type} {le : α → α → Bool} {a : α} {l : List α} :
    a ∈ sortBy le l ↔ a ∈ l := by
  induction l with
  | nil => simp [sortBy]
  | cons x xs ih => simp [sortBy, mem_insertBy, ih]

theorem pairwise_le_insertBy {x : Nat} {l : List Nat}
    (h : l.Pairwise (· ≤ ·)) :
    (insertBy (fun a b => decide (a ≤ b)) x l).Pairwise (· ≤ ·) := by
  induction l with
  | nil => simp [insertBy]
  | cons y ys ih =>
    rcases h with - | ⟨hy, hys⟩
    simp only [insertBy]
    split
    · rename_i hle
      simp only [decide_eq_true_eq] at hle
      exact List.Pairwise.cons
        (fun z hz => by
          rcases List.mem_cons.mp hz with rfl | hz
          · exact hle
          · exact Nat.le_trans hle (hy z hz))
        (List.Pairwise.cons hy hys)
    · rename_i hle
      simp only [decide_eq_true_eq] at hle
      exact List.Pairwise.cons
        (fun z hz => by
          rcases mem_insertBy.mp hz with rfl | hz
          · exact Nat.le_of_lt (Nat.lt_of_not_le hle)
          · exact hy z hz)
        (ih hys)

theorem sortBy_nat_pairwise (l : List Nat) :
    (sortBy (fun a b => decide (a ≤ b)) l).Pairwise (· ≤ ·) := by
  induction l with
  | nil => exact List.Pairwise.nil
  | cons x xs ih => exact pairwise_le_insertBy ih

theorem mem_dedupAdjAux {last a : Nat} {l : List Nat}
    (h : a ∈ dedupAdjAux last l) : a ∈ l := by
  induction l generalizing last with
  | nil => simp [dedupAdjAux] at h
  | cons y ys ih =>
    simp only [dedupAdjAux] at h
    split at h
    · exact List.mem_cons_of_mem _ (ih h)
    · rcases List.mem_cons.mp h with rfl | h
      · exact List.mem_cons_self _ _
      · exact List.mem_cons_of_mem _ (ih h)

theorem mem_dedupAdj {a : Nat} {l : List Nat} (h : a ∈ dedupAdj l) : a ∈ l := by
  cases l with
  | nil => simp [dedupAdj] at h
  | cons x rest =>
    simp only [dedupAdj] at h
    rcases List.mem_cons.mp h with rfl | h
    · exact List.mem_cons_self _ _
    · exact List.mem_cons_of_mem _ (mem_dedupAdjAux h)

theorem dedupAdjAux_pairwise {last : Nat} {l : List Nat}
    (hl : l.Pairwise (· ≤ ·)) (hlast : ∀ z ∈ l, last ≤ z) :
    (dedupAdjAux last l).Pairwise (· < ·) ∧
      ∀ z ∈ dedupAdjAux last l, last < z := by
  induction l generalizing last with
  | nil => simp [dedupAdjAux]
  | cons y ys ih =>
    rcases hl with - | ⟨hy, hys⟩
    simp only [dedupAdjAux]
    split
    · rename_i heq
      subst heq
      exact ih hys hy
    · rename_i hne
      have hlasty : last < y :=
        Nat.lt_of_le_of_ne (hlast y (List.mem_cons_self _ _)) (fun he => hne he.symm)
      have h1 := ih hys hy
      refine ⟨List.Pairwise.cons (fun z hz => h1.2 z hz) h1.1, ?_⟩
      intro z hz
      rcases List.mem_cons.mp hz with rfl | hz
      · exact hlasty
      · exact Nat.lt_trans hlasty (h1.2 z hz)

theorem dedupAdj_pairwise {l : List Nat} (h : l.Pairwise (· ≤ ·)) :
    (dedupAdj l).Pairwise (· < ·) := by
  cases l with
  | nil => exact List.Pairwise.nil
  | cons x rest =>
    rcases h with - | ⟨hx, hrest⟩
    simp only [dedupAdj]
    have h1 := dedupAdjAux_pairwise hrest hx
    exact List.Pairwise.cons (fun z hz => h1.2 z hz) h1.1

theorem addToGroups_curIdx_mem {gs : List (String × List Nat × List Nat)}
    {key : String} {idx : Nat} {isCur : Bool} {g : String × List Nat × List Nat}
    (hg : g ∈ addToGroups gs key idx isCur) :
    ∀ x ∈ g.2.1, (∃ g2 ∈ gs, x ∈ g2.2.1) ∨ (isCur = true ∧ x = idx) := by
  induction gs with
  | nil =>
    intro x hx
    cases isCur <;> simp only [addToGroups] at hg <;> simp at hg <;> subst hg
    · simp at hx
    · simp only [List.mem_singleton] at hx
      exact Or.inr ⟨rfl, hx⟩
  | cons p rest ih =>
    obtain ⟨k, cs, us⟩ := p
    intro x hx
    simp only [addToGroups] at hg
    split_ifs at hg
    · rcases List.mem_cons.mp hg with rfl | hg
      · rcases List.mem_append.mp hx with hx | hx
        · exact Or.inl ⟨(k, cs, us), List.mem_cons_self _ _, hx⟩
        · simp only [List.mem_singleton] at hx
          rename_i hcur _
          exact Or.inr ⟨hcur, hx⟩
      · exact Or.inl ⟨g, List.mem_cons_of_mem _ hg, hx⟩
    · rcases List.mem_cons.mp hg with rfl | hg
      · exact Or.inl ⟨(k, cs, us), List.mem_cons_self _ _, hx⟩
      · exact Or.inl ⟨g, List.mem_cons_of_mem _ hg, hx⟩
    · rcases List.mem_cons.mp hg with rfl | hg
      · exact Or.inl ⟨(k, cs, us), List.mem_cons_self _ _, hx⟩
      · rcases ih hg x hx with ⟨g2, hg2, hx2⟩ | hr
        · exact Or.inl ⟨g2, List.mem_cons_of_mem _ hg2, hx2⟩
        · exact Or.inr hr

theorem foldl_addToGroups_inv {n : Nat} {keyf : Nat → String} {isCur : Bool}
    (l : List Nat) (gs0 : List (String × List Nat × List Nat))
    (hl : isCur = true → ∀ i ∈ l, i < n)
    (h0 : ∀ g ∈ gs0, ∀ x ∈ g.2.1, x < n) :
    ∀ g ∈ l.foldl (fun gs i => addToGroups gs (keyf i) i isCur) gs0,
      ∀ x ∈ g.2.1, x < n := by
  induction l generalizing gs0 with
  | nil => exact h0
  | cons i rest ih =>
    simp only [List.foldl_cons]
    apply ih
    · intro hc j hj
      exact hl hc j (List.mem_cons_of_mem _ hj)
    · intro g hg x hx
      rcases addToGroups_curIdx_mem hg x hx with ⟨g2, hg2, hx2⟩ | ⟨hc, rfl⟩
      · exact h0 g2 hg2 x hx2
      · exact hl hc x (List.mem_cons_self _ _)

theorem buildIdGroups_inRange {cur upd : List Row} :
    ∀ g ∈ buildIdGroups cur upd, ∀ x ∈ g.2.1, x < cur.length := by
  unfold buildIdGroups
  apply foldl_addToGroups_inv
  · intro hc
    cases hc
  · apply foldl_addToGroups_inv
    · intro _ i hi
      exact List.mem_range.mp hi
    · intro g hg
      simp at hg

theorem findMatchingCurrent_mem {cur : List Row} {uh : String} {uf ut : Int}
    {idxs : List Nat} {c : Nat} {a b : Bool}
    (h : findMatchingCurrent cur uh uf ut idxs = (some c, a, b)) : c ∈ idxs := by
  induction idxs with
  | nil => simp [findMatchingCurrent] at h
  | cons i rest ih =>
    simp only [findMatchingCurrent] at h
    split_ifs at h <;>
      first
        | (simp only [Prod.mk.injEq, Option.some.injEq] at h
           exact h.1 ▸ List.mem_cons_self _ _)
        | exact List.mem_cons_of_mem _ (ih h)

theorem fsLoop_expire_mem {cur upd : List Row} {curIdxs : List Nat} {ts : Int} :
    ∀ (uIdxs expire : List Nat) (ins : List (List Row)) (toIns : List Nat),
      ∀ x ∈ (fsLoop cur upd curIdxs ts uIdxs expire ins toIns).1,
        x ∈ expire ∨ x ∈ curIdxs := by
  intro uIdxs
  induction uIdxs with
  | nil =>
    intro expire ins toIns x hx
    simp only [fsLoop] at hx
    exact Or.inl hx
  | cons u rest ih =>
    intro expire ins toIns x hx
    simp only [fsLoop] at hx
    split at hx
    · rename_i cIdx heq
      rcases ih _ _ _ x hx with h | h
      · rcases List.mem_append.mp h with h | h
        · exact Or.inl h
        · simp only [List.mem_singleton] at h
          subst h
          exact Or.inr (findMatchingCurrent_mem heq)
      · exact Or.inr h
    · exact ih _ _ _ x hx
    · exact ih _ _ _ x hx
    · rcases ih _ _ _ x hx with h | h
      · split_ifs at h
        · rcases List.mem_append.mp h with h | h
          · exact Or.inl h
          · exact Or.inr h
        · exact Or.inl h
      · exact Or.inr h

theorem processFullState_fst {curIdxs updIdxs : List Nat} {cur upd : List Row}
    {ts : Int} :
    (processFullState curIdxs updIdxs cur upd ts).1 =
      (fsLoop cur upd curIdxs ts updIdxs [] [] []).1 := by
  unfold processFullState
  dsimp only
  split <;> rfl

theorem createRecs_origIndex {idxs : List Nat} {batch : List Row} {r : Rec}
    (h : r ∈ createRecs idxs batch) : ∃ i ∈ idxs, r.origIndex = some i := by
  simp only [createRecs, List.mem_map] at h
  obtain ⟨i, hi, rfl⟩ := h
  exact ⟨i, hi, rfl⟩

theorem processIdTimeline_expire_mem {curRecs updRecs : List Rec}
    {cur upd : List Row} :
    ∀ x ∈ (processIdTimeline curRecs updRecs cur upd).1,
      ∃ r ∈ curRecs, r.origIndex = some x := by
  intro x hx
  simp only [processIdTimeline] at hx
  split at hx
  · simp at hx
  · rw [List.mem_filterMap] at hx
    obtain ⟨r, hr, hro⟩ := hx
    simp only [categorizeRecords, List.mem_filter] at hr
    exact ⟨r, hr.1, hro⟩

theorem processIdGroupOptimized_expire_mem {curIdxs updIdxs : List Nat}
    {cur upd : List Row} {sysDate : Int} {mode : UpdateMode} {ts : Int} :
    ∀ x ∈ (processIdGroupOptimized curIdxs updIdxs cur upd sysDate mode ts).1,
      x ∈ curIdxs := by
  intro x hx
  simp only [processIdGroupOptimized] at hx
  split at hx
  · split at hx
    · exact hx
    · simp at hx
  · split at hx
    · rw [processFullState_fst] at hx
      rcases fsLoop_expire_mem updIdxs [] [] [] x hx with h | h
      · simp at h
      · exact h
    · obtain ⟨r, hr, hro⟩ := processIdTimeline_expire_mem x hx
      obtain ⟨i, hi, hro2⟩ := createRecs_origIndex hr
      rw [hro2] at hro
      cases hro
      exact hi

theorem processGroupsAux_expire_mem {cur upd : List Row} {sysDate : Int}
    {mode : UpdateMode} {ts : Int} :
    ∀ (gs : List (String × List Nat × List Nat)) (te : List Nat)
      (ti : List (List Row)),
      ∀ x ∈ (processGroupsAux cur upd sysDate mode ts gs te ti).1,
        x ∈ te ∨ ∃ g ∈ gs, x ∈ g.2.1 := by
  intro gs
  induction gs with
  | nil =>
    intro te ti x hx
    simp only [processGroupsAux] at hx
    exact Or.inl hx
  | cons g rest ih =>
    intro te ti x hx
    simp only [processGroupsAux] at hx
    rcases ih _ _ x hx with h | ⟨g2, hg2, hx2⟩
    · rcases List.mem_append.mp h with h | h
      · exact Or.inl h
      · exact Or.inr ⟨g, List.mem_cons_self _ _, processIdGroupOptimized_expire_mem x h⟩
    · exact Or.inr ⟨g2, List.mem_cons_of_mem _ hg2, hx2⟩

theorem buildFinalChangeset_toExpire {te : List Nat} {ti : List (List Row)}
    {cur : List Row} {ts : Int} :
    (buildFinalChangeset te ti cur ts).toExpire =
      dedupAdj (sortBy (fun a b => decide (a ≤ b)) te) := rfl

theorem processUpdatesPrepared_expire (cur upd : List Row) (sysDate : Int)
    (mode : UpdateMode) (ts : Int) :
    (processUpdatesPrepared cur upd sysDate mode ts).toExpire.Pairwise (· < ·) ∧
    ∀ i ∈ (processUpdatesPrepared cur upd sysDate mode ts).toExpire,
      i < cur.length := by
  unfold processUpdatesPrepared
  cases hh : handleEmptyInputs cur upd sysDate mode ts with
  | some cs =>
    unfold handleEmptyInputs at hh
    split_ifs at hh <;> simp only [Option.some.injEq, reduceCtorEq] at hh <;> subst hh
    · exact ⟨List.pairwise_lt_range _, fun i hi => List.mem_range.mp hi⟩
    · exact ⟨List.Pairwise.nil, fun i hi => by simp at hi⟩
    · exact ⟨List.Pairwise.nil, fun i hi => by simp at hi⟩
  | none =>
    rw [buildFinalChangeset_toExpire]
    refine ⟨dedupAdj_pairwise (sortBy_nat_pairwise _), ?_⟩
    intro i hi
    have h1 := mem_sortBy.mp (mem_dedupAdj hi)
    rcases processGroupsAux_expire_mem _ _ _ i h1 with h | ⟨g, hg, hx⟩
    · simp at h
    · exact buildIdGroups_inRange g hg i hx

/-- C6: the expiry index list of every run is strictly increasing, hence
sorted and duplicate-free, and every index is a valid row position of
current_state. -/
theorem c6_expire_indices_sorted_unique_in_range (cur upd : List Row)
    (sysDate : Int) (mode : UpdateMode) (ci : Bool) (ts : Int) :
    (processUpdates cur upd sysDate mode ci ts).toExpire.Pairwise (· < ·) ∧
    ∀ i ∈ (processUpdates cur upd sysDate mode ci ts).toExpire, i < cur.length := by
  unfold processUpdates
  exact processUpdatesPrepared_expire cur _ sysDate mode ts

/-- Witness for C6 at the concrete backfill run, whose expiry list is the
singleton index 0 of the one-row current state. -/
theorem c6_expire_indices_sorted_unique_in_range_witness :
    (0 : Nat) ∈ (processUpdates [futureRowCur] [backfillUpd] 0
      UpdateMode.fullState false 7).toExpire ∧ 0 < 1 :=
  ⟨by decide,
    (c6_expire_indices_sorted_unique_in_range [futureRowCur] [backfillUpd] 0
      UpdateMode.fullState false 7).2 0 (by decide)⟩

theorem mem_dedupRun {β : Type} {last k : String × Int × Int × String} {b : β}
    {l : List ((String × Int × Int × String) × β)}
    (h : (k, b) ∈ dedupRun last l) : (k, b) ∈ l := by
  induction l generalizing last with
  | nil => simp [dedupRun] at h
  | cons p rest ih =>
    obtain ⟨k2, b2⟩ := p
    simp only [dedupRun] at h
    split at h
    · exact List.mem_cons_of_mem _ (ih h)
    · rcases List.mem_cons.mp h with he | h
      · exact he ▸ List.mem_cons_self _ _
      · exact List.mem_cons_of_mem _ (ih h)

theorem dedupRun_keys {β : Type} {last : String × Int × Int × String}
    {l : List ((String × Int × Int × String) × β)} :
    ∀ x ∈ l, x.1 = last ∨ ∃ y ∈ dedupRun last l, y.1 = x.1 := by
  induction l generalizing last with
  | nil => intro x hx; simp at hx
  | cons p rest ih =>
    obtain ⟨k2, b2⟩ := p
    intro x hx
    simp only [dedupRun]
    split
    · rename_i heq
      rcases List.mem_cons.mp hx with rfl | hx
      · exact Or.inl heq
      · exact ih x hx
    · rcases List.mem_cons.mp hx with rfl | hx
      · exact Or.inr ⟨(k2, b2), List.mem_cons_self _ _, rfl⟩
      · rcases ih x hx with heq | ⟨y, hy, hyk⟩
        · exact Or.inr ⟨(k2, b2), List.mem_cons_self _ _, heq.symm ▸ rfl⟩
        · exact Or.inr ⟨y, List.mem_cons_of_mem _ hy, hyk⟩

theorem dedupByKey_keys {β : Type}
    {l : List ((String × Int × Int × String) × β)} :
    ∀ x ∈ l, ∃ y ∈ dedupByKey l, y.1 = x.1 := by
  cases l with
  | nil => intro x hx; simp at hx
  | cons p rest =>
    obtain ⟨k2, b2⟩ := p
    intro x hx
    simp only [dedupByKey]
    rcases List.mem_cons.mp hx with rfl | hx
    · exact ⟨(k2, b2), List.mem_cons_self _ _, rfl⟩
    · rcases dedupRun_keys x hx with heq | ⟨y, hy, hyk⟩
      · exact ⟨(k2, b2), List.mem_cons_self _ _, heq.symm ▸ rfl⟩
      · exact ⟨y, List.mem_cons_of_mem _ hy, hyk⟩

theorem mem_dedupByKey {β : Type} {y : (String × Int × Int × String) × β}
    {l : List ((String × Int × Int × String) × β)}
    (h : y ∈ dedupByKey l) : y ∈ l := by
  cases l with
  | nil => simp [dedupByKey] at h
  | cons p rest =>
    obtain ⟨k2, b2⟩ := p
    obtain ⟨yk, yb⟩ := y
    simp only [dedupByKey] at h
    rcases List.mem_cons.mp h with he | h
    · exact he ▸ List.mem_cons_self _ _
    · exact List.mem_cons_of_mem _ (mem_dedupRun h)

theorem dedup_key_preserved {batches : List (List Row)} {r : Row}
    (h : [r] ∈ batches) :
    ∃ b ∈ deduplicateRecordBatches batches, ∃ s : Row,
      b = [s] ∧ dedupKey s = dedupKey r := by
  have hrec : (dedupKey r, [r]) ∈ batches.filterMap (fun b =>
      match b with
      | [r2] => some (dedupKey r2, b)
      | _ => none) := by
    rw [List.mem_filterMap]
    exact ⟨[r], h, rfl⟩
  have hsorted : (dedupKey r, [r]) ∈ sortBy (fun a b => keyLE a.1 b.1)
      (batches.filterMap (fun b =>
        match b with
        | [r2] => some (dedupKey r2, b)
        | _ => none)) := mem_sortBy.mpr hrec
  obtain ⟨y, hy, hyk⟩ := dedupByKey_keys _ hsorted
  have hyin : y ∈ batches.filterMap (fun b =>
      match b with
      | [r2] => some (dedupKey r2, b)
      | _ => none) := mem_sortBy.mp (mem_dedupByKey hy)
  rw [List.mem_filterMap] at hyin
  obtain ⟨a, _, ha⟩ := hyin
  match a, ha with
  | [s], ha =>
    simp only [Option.some.injEq] at ha
    refine ⟨y.2, ?_, s, ?_, ?_⟩
    · unfold deduplicateRecordBatches
      exact List.mem_map_of_mem (fun p => p.2) hy
    · rw [← ha]
    · have : y.1 = dedupKey s := by rw [← ha]
      rw [← this, hyk]

/-- C9: deduplication never collapses two single-row batches whose identity
keys differ: for any input containing both, the output keeps two distinct
single-row batches carrying their respective deduplication keys (identity
key, effective interval, value hash). -/
theorem c9_dedup_keeps_distinct_identities (batches : List (List Row))
    (r1 r2 : Row) (h1 : [r1] ∈ batches) (h2 : [r2] ∈ batches)
    (hid : idKey r1 ≠ idKey r2) :
    ∃ b1 ∈ deduplicateRecordBatches batches,
      ∃ b2 ∈ deduplicateRecordBatches batches,
        ∃ s1 s2 : Row, b1 = [s1] ∧ b2 = [s2] ∧
          dedupKey s1 = dedupKey r1 ∧ dedupKey s2 = dedupKey r2 ∧ b1 ≠ b2 := by
  obtain ⟨b1, hb1, s1, hs1, hk1⟩ := dedup_key_preserved h1
  obtain ⟨b2, hb2, s2, hs2, hk2⟩ := dedup_key_preserved h2
  refine ⟨b1, hb1, b2, hb2, s1, s2, hs1, hs2, hk1, hk2, ?_⟩
  intro he
  apply hid
  have : dedupKey s1 = dedupKey s2 := by rw [hs1, hs2] at he; cases he; rfl
  have h3 : dedupKey r1 = dedupKey r2 := by rw [← hk1, ← hk2, this]
  exact congrArg (fun p => p.1) h3

/-- Witness for C9: two rows with identical values and intervals but
different identity keys both survive deduplication. -/
theorem c9_dedup_keeps_distinct_identities_witness :
    [(⟨["1"], ["9"], "h", 0, 10, 0, MAXTS⟩ : Row)] ∈
        [[(⟨["1"], ["9"], "h", 0, 10, 0, MAXTS⟩ : Row)],
         [(⟨["2"], ["9"], "h", 0, 10, 0, MAXTS⟩ : Row)]] ∧
    idKey (⟨["1"], ["9"], "h", 0, 10, 0, MAXTS⟩ : Row) ≠
      idKey (⟨["2"], ["9"], "h", 0, 10, 0, MAXTS⟩ : Row) ∧
    (∃ b1 ∈ deduplicateRecordBatches
        [[(⟨["1"], ["9"], "h", 0, 10, 0, MAXTS⟩ : Row)],
         [(⟨["2"], ["9"], "h", 0, 10, 0, MAXTS⟩ : Row)]],
      ∃ b2 ∈ deduplicateRecordBatches
        [[(⟨["1"], ["9"], "h", 0, 10, 0, MAXTS⟩ : Row)],
         [(⟨["2"], ["9"], "h", 0, 10, 0, MAXTS⟩ : Row)]],
        ∃ s1 s2 : Row, b1 = [s1] ∧ b2 = [s2] ∧
          dedupKey s1 = dedupKey (⟨["1"], ["9"], "h", 0, 10, 0, MAXTS⟩ : Row) ∧
          dedupKey s2 = dedupKey (⟨["2"], ["9"], "h", 0, 10, 0, MAXTS⟩ : Row) ∧
          b1 ≠ b2) :=
  ⟨by decide, by decide,
    c9_dedup_keeps_distinct_identities _ _ _ (by decide) (by decide) (by decide)⟩

theorem find?_replaceValueHash_self {cols : List ACol} {newCol : ACol}
    (hnew : newCol.name = "value_hash")
    (hex : (cols.find? (fun c => c.name = "value_hash")).isSome) :
    (replaceValueHashCol cols newCol).find? (fun c => c.name = "value_hash") =
      some newCol := by
  induction cols with
  | nil => simp [List.find?] at hex
  | cons c rest ih =>
    simp only [replaceValueHashCol]
    split
    · rename_i hc
      exact List.find?_cons_of_pos _ (by simp [hnew])
    · rename_i hc
      rw [List.find?_cons_of_neg _ (by simp [hc])]
      rw [List.find?_cons_of_neg _ (by simp [hc])] at hex
      exact ih hex

theorem find?_replaceValueHash_other {cols : List ACol} {newCol : ACol}
    {n : String} (hn : n ≠ "value_hash") (hnew : newCol.name = "value_hash") :
    (replaceValueHashCol cols newCol).find? (fun c => c.name = n) =
      cols.find? (fun c => c.name = n) := by
  induction cols with
  | nil => simp [replaceValueHashCol]
  | cons c rest ih =>
    have hvn : ¬ ("value_hash" = n) := fun he => hn he.symm
    simp only [replaceValueHashCol]
    split
    · rename_i hc
      rw [List.find?_cons_of_neg _ (by simp [hnew, hvn]),
        List.find?_cons_of_neg _ (by simp [hc, hvn])]
    · rename_i hc
      by_cases hcn : c.name = n
      · rw [List.find?_cons_of_pos _ (by simp [hcn]),
          List.find?_cons_of_pos _ (by simp [hcn])]
      · rw [List.find?_cons_of_neg _ (by simp [hcn]),
          List.find?_cons_of_neg _ (by simp [hcn])]
        exact ih

theorem addHashColumnArrowDirect_spec (digest : HashAlgorithm → List Nat → String)
    (algo : HashAlgorithm) (b : ABatch) (valueCols : List String)
    (hrows : b.numRows ≠ 0) (hcols : ∀ cn ∈ valueCols, (colByName b cn).isSome) :
    ∃ b2, addHashColumnArrowDirect digest algo b valueCols = .ok b2 ∧
      b2.numRows = b.numRows ∧
      colByName b2 "value_hash" = some ⟨"value_hash", .utf8,
        (hashValuesBatchArrowDirect digest algo b (List.range b.numRows) valueCols).map
          (fun h2 => some (.vutf8 h2))⟩ ∧
      (∀ n, n ≠ "value_hash" → colByName b2 n = colByName b n) := by
  have hall : valueCols.all (fun cn => (colByName b cn).isSome) = true :=
    List.all_eq_true.mpr (fun cn hcn => hcols cn hcn)
  unfold addHashColumnArrowDirect
  rw [if_neg hrows, if_neg (by simp [hall])]
  by_cases hvh : (colByName b "value_hash").isSome
  · rw [if_pos hvh]
    refine ⟨_, rfl, rfl, ?_, ?_⟩
    · exact find?_replaceValueHash_self rfl hvh
    · intro n hn
      exact find?_replaceValueHash_other hn rfl
  · rw [if_neg hvh]
    have hnone : b.cols.find? (fun c => c.name = "value_hash") = none :=
      Option.not_isSome_iff_eq_none.mp hvh
    refine ⟨_, rfl, rfl, ?_, ?_⟩
    · simp only [colByName]
      rw [List.find?_append, hnone]
      simp [List.find?]
    · intro n hn
      have hvn : ¬ ("value_hash" = n) := fun he => hn he.symm
      simp only [colByName]
      rw [List.find?_append]
      have hsingle : ([(⟨"value_hash", .utf8,
          (hashValuesBatchArrowDirect digest algo b (List.range b.numRows) valueCols).map
            (fun h2 => some (.vutf8 h2))⟩ : ACol)]).find? (fun c => c.name = n) = none := by
        simp [List.find?, hvn]
      rw [hsingle]
      cases b.cols.find? (fun c => c.name = n) <;> rfl

/-- C5 (amended): for every NON-EMPTY batch whose value columns all exist,
the hash entry point returns the batch with a populated string value_hash
column, computed row by row with the selected digest — replaced when the
column was present, appended when it was absent — and leaves every other
column untouched. -/
theorem c5_add_hash_key_populates (digest : HashAlgorithm → List Nat → String)
    (algo : HashAlgorithm) (b : ABatch) (valueCols : List String)
    (hrows : b.numRows ≠ 0) (hcols : ∀ cn ∈ valueCols, (colByName b cn).isSome) :
    ∃ b2, addHashColumnArrowDirect digest algo b valueCols = .ok b2 ∧
      b2.numRows = b.numRows ∧
      colByName b2 "value_hash" = some ⟨"value_hash", .utf8,
        (hashValuesBatchArrowDirect digest algo b (List.range b.numRows) valueCols).map
          (fun h2 => some (.vutf8 h2))⟩ ∧
      (∀ n, n ≠ "value_hash" → colByName b2 n = colByName b n) :=
  addHashColumnArrowDirect_spec digest algo b valueCols hrows hcols

/-- Witness for the amended C5 on a concrete one-row batch without a prior
value_hash column. -/
theorem c5_add_hash_key_populates_witness :
    (singletonBatch .int64 (.vint64 5)).numRows ≠ 0 ∧
    ∃ b2, addHashColumnArrowDirect (fun _ _ => "d") HashAlgorithm.xxHash
        (singletonBatch .int64 (.vint64 5)) ["v"] = .ok b2 ∧
      b2.numRows = (singletonBatch .int64 (.vint64 5)).numRows ∧
      colByName b2 "value_hash" = some ⟨"value_hash", .utf8,
        (hashValuesBatchArrowDirect (fun _ _ => "d") HashAlgorithm.xxHash
          (singletonBatch .int64 (.vint64 5))
          (List.range (singletonBatch .int64 (.vint64 5)).numRows) ["v"]).map
          (fun h2 => some (.vutf8 h2))⟩ ∧
      (∀ n, n ≠ "value_hash" →
        colByName b2 n = colByName (singletonBatch .int64 (.vint64 5)) n) :=
  ⟨by decide,
    c5_add_hash_key_populates (fun _ _ => "d") HashAlgorithm.xxHash
      (singletonBatch .int64 (.vint64 5)) ["v"] (by decide)
      (by intro cn hcn; simp only [List.mem_singleton] at hcn; subst hcn; decide)⟩

/-- C5 counterexample: on an empty batch the entry point returns an error,
not the batch with a populated hash column, so the claim does not hold for
every input batch. -/
theorem c5_empty_batch_errors :
    addHashColumnArrowDirect (fun _ _ => "d") HashAlgorithm.xxHash ⟨[], 0⟩ [] =
      .error "Cannot add hash column to empty RecordBatch" := rfl

/-- C10: hash ensuring is all-or-nothing per batch.  When the value_hash
column is fully populated (string-typed, every cell non-null and non-empty)
the batch passes through unchanged; otherwise — some cell null or empty, the
column missing or mistyped — the whole column is recomputed for every row,
overwriting any caller-supplied hashes. -/
theorem c10_ensure_hash_all_or_nothing (digest : HashAlgorithm → List Nat → String)
    (algo : HashAlgorithm) (b : ABatch) (valueCols : List String) :
    (hashColPopulated b = true →
      ensureHashColumnWithAlgorithm digest algo b valueCols = .ok b) ∧
    (b.numRows ≠ 0 → hashColPopulated b = false →
      (∀ cn ∈ valueCols, (colByName b cn).isSome) →
      ∃ b2, ensureHashColumnWithAlgorithm digest algo b valueCols = .ok b2 ∧
        colByName b2 "value_hash" = some ⟨"value_hash", .utf8,
          (hashValuesBatchArrowDirect digest algo b (List.range b.numRows) valueCols).map
            (fun h2 => some (.vutf8 h2))⟩) := by
  constructor
  · intro hp
    unfold ensureHashColumnWithAlgorithm
    by_cases hr : b.numRows = 0
    · rw [if_pos hr]
    · rw [if_neg hr, if_pos hp]
  · intro hr hp hcols
    unfold ensureHashColumnWithAlgorithm
    rw [if_neg hr, if_neg (by simp [hp])]
    obtain ⟨b2, he, -, hcol, -⟩ :=
      addHashColumnArrowDirect_spec digest algo b valueCols hr hcols
    exact ⟨b2, he, hcol⟩

/-- Witness for C10: a populated batch passes through unchanged, and a batch
with one empty hash cell among non-empty ones is recomputed whole. -/
theorem c10_ensure_hash_all_or_nothing_witness :
    ensureHashColumnWithAlgorithm (fun _ _ => "d") HashAlgorithm.xxHash
      ⟨[⟨"value_hash", .utf8, [some (.vutf8 "x")]⟩], 1⟩ [] =
        .ok ⟨[⟨"value_hash", .utf8, [some (.vutf8 "x")]⟩], 1⟩ ∧
    ∃ b2, ensureHashColumnWithAlgorithm (fun _ _ => "d") HashAlgorithm.xxHash
        ⟨[⟨"v", .int64, [some (.vint64 5), some (.vint64 6)]⟩,
          ⟨"value_hash", .utf8, [some (.vutf8 "keep"), some (.vutf8 "")]⟩], 2⟩
        ["v"] = .ok b2 ∧
      colByName b2 "value_hash" = some ⟨"value_hash", .utf8,
        (hashValuesBatchArrowDirect (fun _ _ => "d") HashAlgorithm.xxHash
          ⟨[⟨"v", .int64, [some (.vint64 5), some (.vint64 6)]⟩,
            ⟨"value_hash", .utf8, [some (.vutf8 "keep"), some (.vutf8 "")]⟩], 2⟩
          (List.range 2) ["v"]).map (fun h2 => some (.vutf8 h2))⟩ :=
  ⟨(c10_ensure_hash_all_or_nothing (fun _ _ => "d") HashAlgorithm.xxHash
      ⟨[⟨"value_hash", .utf8, [some (.vutf8 "x")]⟩], 1⟩ []).1 (by decide),
    (c10_ensure_hash_all_or_nothing (fun _ _ => "d") HashAlgorithm.xxHash
      ⟨[⟨"v", .int64, [some (.vint64 5), some (.vint64 6)]⟩,
        ⟨"value_hash", .utf8, [some (.vutf8 "keep"), some (.vutf8 "")]⟩], 2⟩ ["v"]).2
      (by decide) (by decide)
      (by intro cn hcn; simp only [List.mem_singleton] at hcn; subst hcn; decide)⟩

/-- C7: the value hash is stable under integer widening and under the
normalization of integer-valued floats: a value stored at a narrower integer
width, or as a finite zero-fraction Float64 in signed-64-bit range, hashes
to the same value_hash string as the same value stored as Int64, for every
digest and algorithm, because the byte serializations coincide. -/
theorem c7_hash_stable_under_widening (digest : HashAlgorithm → List Nat → String)
    (algo : HashAlgorithm) (v : Int) :
    ((-(2 ^ 31) ≤ v ∧ v < 2 ^ 31) →
      hashValuesBatchArrowDirect digest algo (singletonBatch .int32 (.vint32 v)) [0] ["v"] =
        hashValuesBatchArrowDirect digest algo (singletonBatch .int64 (.vint64 v)) [0] ["v"]) ∧
    ((-(2 ^ 15) ≤ v ∧ v < 2 ^ 15) →
      hashValuesBatchArrowDirect digest algo (singletonBatch .int16 (.vint16 v)) [0] ["v"] =
        hashValuesBatchArrowDirect digest algo (singletonBatch .int64 (.vint64 v)) [0] ["v"]) ∧
    ((-(2 ^ 7) ≤ v ∧ v < 2 ^ 7) →
      hashValuesBatchArrowDirect digest algo (singletonBatch .int8 (.vint8 v)) [0] ["v"] =
        hashValuesBatchArrowDirect digest algo (singletonBatch .int64 (.vint64 v)) [0] ["v"]) ∧
    ((-(2 ^ 63) ≤ v ∧ v < 2 ^ 63) →
      hashValuesBatchArrowDirect digest algo (singletonBatch .float64 (.vfloat64int v)) [0] ["v"] =
        hashValuesBatchArrowDirect digest algo (singletonBatch .int64 (.vint64 v)) [0] ["v"]) :=
  ⟨fun _ => rfl, fun _ => rfl, fun _ => rfl, fun _ => rfl⟩

/-- Witness for C7 at value 5. -/
theorem c7_hash_stable_under_widening_witness :
    ((-(2 ^ 31) ≤ (5 : Int) ∧ (5 : Int) < 2 ^ 31) ∧
      hashValuesBatchArrowDirect (fun _ l => toString l) HashAlgorithm.xxHash
          (singletonBatch .int32 (.vint32 5)) [0] ["v"] =
        hashValuesBatchArrowDirect (fun _ l => toString l) HashAlgorithm.xxHash
          (singletonBatch .int64 (.vint64 5)) [0] ["v"]) ∧
    ((-(2 ^ 63) ≤ (5 : Int) ∧ (5 : Int) < 2 ^ 63) ∧
      hashValuesBatchArrowDirect (fun _ l => toString l) HashAlgorithm.xxHash
          (singletonBatch .float64 (.vfloat64int 5)) [0] ["v"] =
        hashValuesBatchArrowDirect (fun _ l => toString l) HashAlgorithm.xxHash
          (singletonBatch .int64 (.vint64 5)) [0] ["v"]) :=
  ⟨⟨by decide,
      (c7_hash_stable_under_widening (fun _ l => toString l) HashAlgorithm.xxHash 5).1
        (by decide)⟩,
    ⟨by decide,
      (c7_hash_stable_under_widening (fun _ l => toString l) HashAlgorithm.xxHash 5).2.2.2
        (by decide)⟩⟩

theorem createTimestampArrayWithUnit_dtype (dt : Int) (u : TUnit)
    (tz : Option String) :
    (createTimestampArrayWithUnit dt u tz).dtype = DType.timestamp u tz := by
  cases u <;> rfl

theorem temporalArrayFor_dtype {dt : Int} {dtype : DType} {a : AArray}
    (h : temporalArrayFor dt dtype = .ok a) : a.dtype = dtype := by
  cases dtype <;> simp only [temporalArrayFor, Except.ok.injEq, reduceCtorEq] at h <;>
    subst h <;>
    first
      | rfl
      | exact createTimestampArrayWithUnit_dtype dt _ _

theorem buildColumn_spec {br : BRec} {srcRow : Nat} {c c2 : ACol}
    (h : buildColumn br srcRow c = .ok c2) :
    c2.name = c.name ∧ (c.name ≠ "value_hash" → c2.dtype = c.dtype) := by
  unfold buildColumn at h
  split_ifs at h with h1 h2 h3 h4 h5
  · cases he : temporalArrayFor br.effFrom c.dtype with
    | error e => rw [he] at h; simp [Except.map] at h
    | ok a =>
      rw [he] at h
      simp only [Except.map, Except.ok.injEq] at h
      subst h
      exact ⟨rfl, fun _ => temporalArrayFor_dtype he⟩
  · cases he : temporalArrayFor br.effTo c.dtype with
    | error e => rw [he] at h; simp [Except.map] at h
    | ok a =>
      rw [he] at h
      simp only [Except.map, Except.ok.injEq] at h
      subst h
      exact ⟨rfl, fun _ => temporalArrayFor_dtype he⟩
  · cases he : temporalArrayFor br.asOfFrom c.dtype with
    | error e => rw [he] at h; simp [Except.map] at h
    | ok a =>
      rw [he] at h
      simp only [Except.map, Except.ok.injEq] at h
      subst h
      exact ⟨rfl, fun _ => temporalArrayFor_dtype he⟩
  · cases he : temporalArrayFor br.asOfTo c.dtype with
    | error e => rw [he] at h; simp [Except.map] at h
    | ok a =>
      rw [he] at h
      simp only [Except.map, Except.ok.injEq] at h
      subst h
      exact ⟨rfl, fun _ => temporalArrayFor_dtype he⟩
  · simp only [Except.ok.injEq] at h
    subst h
    exact ⟨rfl, fun hn => absurd h5 hn⟩
  · simp only [Except.ok.injEq] at h
    subst h
    exact ⟨rfl, fun _ => rfl⟩

theorem buildTemporalColumns_preserves {br : BRec} {srcRow : Nat} :
    ∀ {cols cols2 : List ACol}, buildTemporalColumns br srcRow cols = .ok cols2 →
      List.Forall₂ (fun (o s : ACol) => o.name = s.name ∧
        (s.name ≠ "value_hash" → o.dtype = s.dtype)) cols2 cols := by
  intro cols
  induction cols with
  | nil =>
    intro cols2 h
    simp only [buildTemporalColumns, Except.ok.injEq] at h
    subst h
    exact List.Forall₂.nil
  | cons c rest ih =>
    intro cols2 h
    simp only [buildTemporalColumns] at h
    cases hc : buildColumn br srcRow c with
    | error e => rw [hc] at h; cases h
    | ok c2 =>
      rw [hc] at h
      cases hr : buildTemporalColumns br srcRow rest with
      | error e => rw [hr] at h; cases h
      | ok cs =>
        rw [hr] at h
        simp only [Except.ok.injEq] at h
        subst h
        exact List.Forall₂.cons (buildColumn_spec hc) (ih hr)

theorem extendBatchToDateColumns_forall (cols : List ACol) (t : Int) :
    List.Forall₂ (fun (o s : ACol) => o.name = s.name ∧
      (s.name ≠ "effective_to" → o = s) ∧
      (s.name = "effective_to" →
        o.dtype = DType.timestamp .micro (tzOf s.dtype)))
      (extendBatchToDateColumns cols t) cols := by
  induction cols with
  | nil => exact List.Forall₂.nil
  | cons c rest ih =>
    simp only [extendBatchToDateColumns, List.map_cons] at ih ⊢
    refine List.Forall₂.cons ?_ ih
    by_cases hc : c.name = "effective_to"
    · rw [if_pos hc]
      exact ⟨rfl, fun hn => absurd hc hn, fun _ => rfl⟩
    · rw [if_neg hc]
      exact ⟨rfl, fun _ => rfl, fun he => absurd he hc⟩

/-- C8 (amended): the timestamp-array builder and the batch assembler
preserve the source schema exactly — one output column per schema field,
same name, and the same data type (hence precision and timezone) for every
column except the value_hash population — but the neighbor-conflation merge
step does NOT: it always writes effective_to as a MICROSECOND timestamp
array, preserving only the timezone tag, so the claimed exact precision
preservation holds there only for schemas whose effective_to is already at
microsecond precision. -/
theorem c8_amended_temporal_type_preservation :
    (∀ (dt : Int) (u : TUnit) (tz : Option String),
      (createTimestampArrayWithUnit dt u tz).dtype = DType.timestamp u tz) ∧
    (∀ (br : BRec) (srcRow : Nat) (cols cols2 : List ACol),
      buildTemporalColumns br srcRow cols = .ok cols2 →
      List.Forall₂ (fun (o s : ACol) => o.name = s.name ∧
        (s.name ≠ "value_hash" → o.dtype = s.dtype)) cols2 cols) ∧
    (∀ (cols : List ACol) (t : Int),
      List.Forall₂ (fun (o s : ACol) => o.name = s.name ∧
        (s.name ≠ "effective_to" → o = s) ∧
        (s.name = "effective_to" →
          o.dtype = DType.timestamp .micro (tzOf s.dtype)))
        (extendBatchToDateColumns cols t) cols) :=
  ⟨createTimestampArrayWithUnit_dtype,
    fun _ _ _ _ h => buildTemporalColumns_preserves h,
    extendBatchToDateColumns_forall⟩

/-- Witness for the amended C8 on a concrete two-column schema. -/
theorem c8_amended_temporal_type_preservation_witness :
    List.Forall₂ (fun (o s : ACol) => o.name = s.name ∧
      (s.name ≠ "value_hash" → o.dtype = s.dtype))
      [⟨"effective_from", .timestamp .nano none, [some (.vts .nano 1000)]⟩,
        ⟨"id", .int64, [some (.vint64 9)]⟩]
      [⟨"effective_from", .timestamp .nano none, [some (.vts .nano 77)]⟩,
        ⟨"id", .int64, [some (.vint64 9)]⟩] :=
  c8_amended_temporal_type_preservation.2.1 ⟨1, 2, 3, 4, "h"⟩ 0
    [⟨"effective_from", .timestamp .nano none, [some (.vts .nano 77)]⟩,
      ⟨"id", .int64, [some (.vint64 9)]⟩]
    [⟨"effective_from", .timestamp .nano none, [some (.vts .nano 1000)]⟩,
      ⟨"id", .int64, [some (.vint64 9)]⟩] (by rfl)

/-- C8 counterexample: the conflation merge on a nanosecond effective_to
schema writes a microsecond-typed column, so the output column's type is not
the source schema's type. -/
theorem c8_conflation_precision_counterexample :
    extendBatchToDateColumns [nanoEffToCol] 7 =
      [⟨"effective_to", .timestamp .micro none, [some (.vts .micro 7)]⟩] ∧
    (⟨"effective_to", .timestamp .micro none,
      [some (.vts .micro 7)]⟩ : ACol).dtype ≠ nanoEffToCol.dtype :=
  ⟨rfl, by decide⟩

end PyTemporal
